import Mathlib

/-!
Shallow embedding of the reconciliation engine of src/script.js
(class ReconciliationTool, method reconcileTransactions, lines 73 to 151,
together with the row-level extraction expressions it contains).

Modelling conventions:
* a Raw Row is an association list from column name to string value;
  JS property lookup on a missing column gives none (undefined);
* the JS Map is an ordered association list: Map.set on an existing key
  updates the value in place and keeps the key position, a new key is
  appended at the end;
* the JS number produced by parseFloat is modelled as Option Rat,
  with none standing for NaN; every ordered comparison against NaN is
  false, which the amount comparison mirrors.  Exact rationals stand in
  for binary doubles; all concrete inputs below are small decimals.
-/

abbrev Row := List (String × String)

abbrev KeyedIndex := List (String × Row)

/-- Field access on a row: models JS property lookup; an absent column gives none. -/
def jsGet (r : Row) (k : String) : Option String :=
  (r.find? (fun p => p.1 == k)).map (fun p => p.2)

/-- Models a JS chain a or b or c of field reads where a value is falsy
iff it is the empty string and an absent field is falsy; the result is the
first truthy value, or the empty string when none is truthy. -/
def firstTruthy : List (Option String) → String
  | [] => ""
  | none :: rest => firstTruthy rest
  | some s :: rest => if s = "" then firstTruthy rest else s

/-- Key extraction, script.js line 87:
(row.transaction_reference or row.reference or row.id or empty).toString().trim();
a row whose trimmed result is empty yields no key (lines 88 to 90 skip it). -/
def extractKey (r : Row) : Option String :=
  let t := (firstTruthy
    [jsGet r "transaction_reference", jsGet r "reference", jsGet r "id"]).trim
  if t = "" then none else some t

/-- Numeric value of a digit list read left to right. -/
def natOfDigits (ds : List Char) : Nat :=
  ds.foldl (fun n c => n * 10 + (c.toNat - '0'.toNat)) 0

/-- Exponent part of a JS float literal; when the digits are missing the
exponent contributes nothing (parseFloat stops before an incomplete exponent). -/
def jsExponent (cs : List Char) : Int :=
  let sg : Int := match cs with
    | '-' :: _ => -1
    | _ => 1
  let cs2 : List Char := match cs with
    | '-' :: rest => rest
    | '+' :: rest => rest
    | _ => cs
  let ds := cs2.takeWhile Char.isDigit
  if ds.isEmpty then 0 else sg * (natOfDigits ds : Int)

/-- Models JS parseFloat on a string: after leading whitespace, an optional
sign, then the longest decimal-number prefix; none models NaN when no digit
is found.  (The Infinity literal is not modelled; every input of interest
here is a plain decimal.) -/
def jsParseFloat (s : String) : Option Rat :=
  let cs0 := s.data.dropWhile Char.isWhitespace
  let sg : Rat := match cs0 with
    | '-' :: _ => -1
    | _ => 1
  let cs1 : List Char := match cs0 with
    | '-' :: rest => rest
    | '+' :: rest => rest
    | _ => cs0
  let intDigits := cs1.takeWhile Char.isDigit
  let cs2 := cs1.dropWhile Char.isDigit
  let fracDigits : List Char := match cs2 with
    | '.' :: rest => rest.takeWhile Char.isDigit
    | _ => []
  let cs3 : List Char := match cs2 with
    | '.' :: rest => rest.dropWhile Char.isDigit
    | _ => cs2
  if intDigits.isEmpty && fracDigits.isEmpty then none
  else
    let expo : Int := match cs3 with
      | 'e' :: rest => jsExponent rest
      | 'E' :: rest => jsExponent rest
      | _ => 0
    some (sg * ((natOfDigits intDigits : Rat)
      + (natOfDigits fracDigits : Rat) / (10 : Rat) ^ fracDigits.length)
      * (10 : Rat) ^ expo)

/-- Amount used by the engine, script.js lines 106 to 107:
parseFloat(row.amount or 0).  An absent or empty field falls back to the
number 0; a non-empty unparsable field gives NaN, modelled as none. -/
def extractAmount (r : Row) : Option Rat :=
  match jsGet r "amount" with
  | none => some 0
  | some s => if s = "" then some 0 else jsParseFloat s

/-- Normalized status, script.js lines 110 to 111:
(row.status or empty).toLowerCase().trim(). -/
def extractStatus (r : Row) : String :=
  ((jsGet r "status").getD "").toLower.trim

/-- Amount comparison, script.js line 108: Math.abs(a - b) < 0.01; any
comparison involving NaN is false. -/
def amountMatch (iRow pRow : Row) : Bool :=
  match extractAmount iRow, extractAmount pRow with
  | some a, some b => decide (|a - b| < (1 / 100 : Rat))
  | _, _ => false

/-- Status comparison, script.js line 112. -/
def statusMatch (iRow pRow : Row) : Bool :=
  extractStatus iRow == extractStatus pRow

/-- Model of JS Map.has. -/
def mapHas (m : KeyedIndex) (k : String) : Bool :=
  m.any (fun p => p.1 == k)

/-- Model of JS Map.get; a missing key gives none (undefined). -/
def mapLookup (m : KeyedIndex) (k : String) : Option Row :=
  (m.find? (fun p => p.1 == k)).map (fun p => p.2)

/-- Model of JS Map.set: updating an existing key keeps its position and
replaces the value; a new key is appended at the end. -/
def mapSet (m : KeyedIndex) (k : String) (v : Row) : KeyedIndex :=
  if mapHas m k then m.map (fun p => if p.1 == k then (k, v) else p)
  else m ++ [(k, v)]

/-- One step of index building, script.js lines 86 to 91: a keyless row is
skipped, otherwise the row is stored under its key (last write wins). -/
def insertRow (m : KeyedIndex) (row : Row) : KeyedIndex :=
  match extractKey row with
  | none => m
  | some k => mapSet m k row

/-- Keyed index of one side, built by one pass over the input rows
(script.js lines 86 to 99). -/
def buildIndex (rows : List Row) : KeyedIndex :=
  rows.foldl insertRow []

structure MatchRecord where
  transaction_reference : String
  internal : Row
  provider : Option Row
  amount_match : Bool
  status_match : Bool
  fully_matched : Bool
deriving DecidableEq

structure Summary where
  total_internal : Nat
  total_provider : Nat
  matched_count : Nat
  mismatched_count : Nat
  internal_only_count : Nat
  provider_only_count : Nat
deriving DecidableEq

structure ReconResult where
  matched : List MatchRecord
  mismatched : List MatchRecord
  internal_only : List Row
  provider_only : List Row
  summary : Summary
deriving DecidableEq

/-- Match record built at script.js lines 114 to 121; the provider field
holds the result of Map.get, which in the building branch is never absent. -/
def mkMatchData (ref : String) (iRow pRow : Row) : MatchRecord :=
  let am := amountMatch iRow pRow
  let sm := statusMatch iRow pRow
  { transaction_reference := ref
    internal := iRow
    provider := some pRow
    amount_match := am
    status_match := sm
    fully_matched := am && sm }

/-- The loop of script.js lines 102 to 131 over the internal index, in
iteration order; Map.has followed by Map.get is modelled by one lookup
(the two agree on an association list).  Returns
(matched, mismatched, internal_only). -/
def processInternal (pm : KeyedIndex) :
    KeyedIndex → List MatchRecord × List MatchRecord × List Row
  | [] => ([], [], [])
  | (ref, iRow) :: rest =>
    let r := processInternal pm rest
    match mapLookup pm ref with
    | some pRow =>
      let md := mkMatchData ref iRow pRow
      if md.fully_matched then (md :: r.1, r.2.1, r.2.2)
      else (r.1, md :: r.2.1, r.2.2)
    | none => (r.1, r.2.1, iRow :: r.2.2)

/-- The loop of script.js lines 134 to 138: provider rows whose key is
absent from the internal index, in provider index order. -/
def processProvider (im pm : KeyedIndex) : List Row :=
  (pm.filter (fun p => !(mapHas im p.1))).map (fun p => p.2)

/-- The engine, script.js lines 73 to 151. -/
def reconcileTransactions (internalData providerData : List Row) : ReconResult :=
  let im := buildIndex internalData
  let pm := buildIndex providerData
  let r := processInternal pm im
  let po := processProvider im pm
  { matched := r.1
    mismatched := r.2.1
    internal_only := r.2.2
    provider_only := po
    summary :=
      { total_internal := internalData.length
        total_provider := providerData.length
        matched_count := r.1.length
        mismatched_count := r.2.1.length
        internal_only_count := r.2.2.length
        provider_only_count := po.length } }

/-- Amount as claims C2 and C4 word it: the amount field parsed as a
decimal number, defaulting to 0 when absent or unparsable. -/
def claimAmount (r : Row) : Rat :=
  match jsGet r "amount" with
  | none => 0
  | some s => (jsParseFloat s).getD 0

/-- Key extraction as claim C3 words it: a field whose value trims to
empty is passed over and the next field in priority is tried. -/
def firstTrimmed : List (Option String) → Option String
  | [] => none
  | none :: rest => firstTrimmed rest
  | some s :: rest => if s.trim = "" then firstTrimmed rest else some s.trim

/-- Transaction key following the wording of claim C3. -/
def claimKey (r : Row) : Option String :=
  firstTrimmed [jsGet r "transaction_reference", jsGet r "reference", jsGet r "id"]

/-- The rows of one input that produced a non-empty key, as claim C6
words the only-lists. -/
def claimKeyedRows (rows : List Row) : List Row :=
  rows.filter (fun r => (extractKey r).isSome)

theorem mapHas_iff_mem (m : KeyedIndex) (k : String) :
    mapHas m k = true ↔ k ∈ m.map Prod.fst := by
  simp [mapHas, List.any_eq_true, List.mem_map]

theorem mapHas_eq_false_iff (m : KeyedIndex) (k : String) :
    mapHas m k = false ↔ k ∉ m.map Prod.fst := by
  rw [← mapHas_iff_mem]
  cases mapHas m k <;> simp

theorem mapHas_of_mem {m : KeyedIndex} {e : String × Row} (h : e ∈ m) :
    mapHas m e.1 = true := by
  rw [mapHas_iff_mem]
  exact List.mem_map.2 ⟨e, h, rfl⟩

theorem mapLookup_isSome (m : KeyedIndex) (k : String) :
    (mapLookup m k).isSome = mapHas m k := by
  unfold mapLookup mapHas
  cases h : m.find? (fun p => p.1 == k) with
  | none =>
    rw [List.find?_eq_none] at h
    simp only [Option.map_none', Option.isSome_none]
    symm
    rw [List.any_eq_false]
    intro p hp
    exact h p hp
  | some p =>
    have hm := List.mem_of_find?_eq_some h
    have hk := List.find?_some h
    simp only [Option.map_some', Option.isSome_some]
    symm
    rw [List.any_eq_true]
    exact ⟨p, hm, hk⟩

theorem mapLookup_eq_none_iff (m : KeyedIndex) (k : String) :
    mapLookup m k = none ↔ mapHas m k = false := by
  rw [← mapLookup_isSome]
  cases mapLookup m k <;> simp

theorem mapLookup_isSome_of_has {m : KeyedIndex} {k : String}
    (h : mapHas m k = true) : ∃ v, mapLookup m k = some v := by
  have := mapLookup_isSome m k
  rw [h] at this
  exact Option.isSome_iff_exists.1 this

theorem mapLookup_mem {m : KeyedIndex} {k : String} {v : Row}
    (h : mapLookup m k = some v) : (k, v) ∈ m := by
  simp only [mapLookup, Option.map_eq_some'] at h
  obtain ⟨p, hp, rfl⟩ := h
  have hm := List.mem_of_find?_eq_some hp
  have hk := List.find?_some hp
  simp only [beq_iff_eq] at hk
  rw [← hk]
  exact hm

theorem mapSet_map_fst_of_has (m : KeyedIndex) (k : String) (v : Row)
    (h : mapHas m k = true) :
    (mapSet m k v).map Prod.fst = m.map Prod.fst := by
  unfold mapSet
  rw [h]
  simp only [if_true, List.map_map]
  apply List.map_congr_left
  intro p _
  by_cases hp : p.1 = k
  · simp [hp]
  · simp [hp]

theorem mapSet_map_fst_of_not_has (m : KeyedIndex) (k : String) (v : Row)
    (h : mapHas m k = false) :
    (mapSet m k v).map Prod.fst = m.map Prod.fst ++ [k] := by
  unfold mapSet
  rw [h]
  simp

theorem mapLookup_append_fresh (m : KeyedIndex) (k : String) (v : Row)
    (h : mapHas m k = false) : mapLookup (m ++ [(k, v)]) k = some v := by
  induction m with
  | nil => simp [mapLookup]
  | cons p rest ih =>
    simp only [mapHas, List.any_cons, Bool.or_eq_false_iff] at h
    obtain ⟨h1, h2⟩ := h
    have hrest : mapHas rest k = false := h2
    have hne : ¬ ((p.1 == k) = true) := by simp [h1]
    unfold mapLookup
    rw [List.cons_append, List.find?_cons]
    simp only [h1]
    exact ih hrest

theorem mapLookup_replace (m : KeyedIndex) (k : String) (v : Row) :
    mapLookup (m.map (fun p => if p.1 == k then (k, v) else p)) k
      = if mapHas m k then some v else none := by
  induction m with
  | nil => simp [mapLookup, mapHas]
  | cons p rest ih =>
    cases hp : (p.1 == k) with
    | true =>
      have hk : mapHas (p :: rest) k = true := by
        simp only [mapHas, List.any_cons, hp, Bool.true_or]
      rw [hk]
      unfold mapLookup
      rw [List.map_cons, hp]
      simp only [if_true]
      rw [List.find?_cons]
      simp
    | false =>
      have hk : mapHas (p :: rest) k = mapHas rest k := by
        simp only [mapHas, List.any_cons, hp, Bool.false_or]
      rw [hk]
      unfold mapLookup
      rw [List.map_cons, hp]
      simp only [Bool.false_eq_true, if_false]
      rw [List.find?_cons]
      simp only [hp]
      exact ih

theorem mapLookup_mapSet_self (m : KeyedIndex) (k : String) (v : Row) :
    mapLookup (mapSet m k v) k = some v := by
  unfold mapSet
  cases h : mapHas m k with
  | true =>
    simp only [if_true]
    rw [mapLookup_replace, h]
    rfl
  | false =>
    simp only [Bool.false_eq_true, if_false]
    exact mapLookup_append_fresh m k v h

theorem mapSet_mem {m : KeyedIndex} {k : String} {v : Row} {e : String × Row}
    (h : e ∈ mapSet m k v) : e ∈ m ∨ e = (k, v) := by
  unfold mapSet at h
  by_cases hk : mapHas m k = true
  · rw [if_pos hk] at h
    obtain ⟨p, hp, he⟩ := List.mem_map.1 h
    by_cases hpk : p.1 = k
    · right
      rw [← he]
      simp [hpk]
    · left
      rw [← he]
      simpa [hpk] using hp
  · rw [if_neg hk] at h
    rcases List.mem_append.1 h with h1 | h1
    · exact Or.inl h1
    · exact Or.inr (List.mem_singleton.1 h1)

theorem insertRow_mem {m : KeyedIndex} {row : Row} {e : String × Row}
    (h : e ∈ insertRow m row) : e ∈ m ∨ extractKey e.2 = some e.1 := by
  unfold insertRow at h
  cases hk : extractKey row with
  | none =>
    rw [hk] at h
    exact Or.inl h
  | some k =>
    rw [hk] at h
    rcases mapSet_mem h with h1 | h1
    · exact Or.inl h1
    · right
      rw [h1]
      exact hk

theorem buildIndexFrom_mem :
    ∀ (rows : List Row) (m : KeyedIndex) (e : String × Row),
      e ∈ rows.foldl insertRow m → e ∈ m ∨ extractKey e.2 = some e.1 := by
  intro rows
  induction rows with
  | nil => intro m e h; exact Or.inl h
  | cons r rest ih =>
    intro m e h
    rcases ih (insertRow m r) e h with h1 | h1
    · exact insertRow_mem h1
    · exact Or.inr h1

theorem buildIndex_mem_key {rows : List Row} {e : String × Row}
    (h : e ∈ buildIndex rows) : extractKey e.2 = some e.1 := by
  rcases buildIndexFrom_mem rows [] e h with h1 | h1
  · simp at h1
  · exact h1

theorem insertRow_nodup {m : KeyedIndex} (row : Row)
    (h : (m.map Prod.fst).Nodup) : ((insertRow m row).map Prod.fst).Nodup := by
  unfold insertRow
  cases hk : extractKey row with
  | none => exact h
  | some k =>
    cases hhas : mapHas m k with
    | true => rw [mapSet_map_fst_of_has m k row hhas]; exact h
    | false =>
      rw [mapSet_map_fst_of_not_has m k row hhas]
      rw [List.nodup_append]
      refine ⟨h, List.nodup_singleton k, ?_⟩
      intro a ha hb
      rw [List.mem_singleton] at hb
      subst hb
      exact (mapHas_eq_false_iff m a).1 hhas ha

theorem buildIndexFrom_nodup :
    ∀ (rows : List Row) (m : KeyedIndex), (m.map Prod.fst).Nodup →
      (((rows.foldl insertRow m).map Prod.fst)).Nodup := by
  intro rows
  induction rows with
  | nil => intro m h; exact h
  | cons r rest ih => intro m h; exact ih (insertRow m r) (insertRow_nodup r h)

theorem buildIndex_nodup (rows : List Row) :
    ((buildIndex rows).map Prod.fst).Nodup :=
  buildIndexFrom_nodup rows [] (by simp)

theorem insertRow_length (m : KeyedIndex) (row : Row) :
    (insertRow m row).length ≤ m.length + 1 := by
  unfold insertRow
  cases extractKey row with
  | none => simp
  | some k =>
    unfold mapSet
    cases hhas : mapHas m k with
    | true => simp [hhas]
    | false => simp [hhas]

theorem buildIndexFrom_length :
    ∀ (rows : List Row) (m : KeyedIndex),
      (rows.foldl insertRow m).length ≤ m.length + rows.length := by
  intro rows
  induction rows with
  | nil => intro m; simp
  | cons r rest ih =>
    intro m
    calc (rest.foldl insertRow (insertRow m r)).length
        ≤ (insertRow m r).length + rest.length := ih (insertRow m r)
      _ ≤ m.length + 1 + rest.length := by
          have := insertRow_length m r
          omega
      _ = m.length + (r :: rest).length := by simp; omega

theorem buildIndex_length_le (rows : List Row) :
    (buildIndex rows).length ≤ rows.length := by
  have := buildIndexFrom_length rows []
  simpa using this

theorem buildIndex_append_singleton (l : List Row) (r : Row) :
    buildIndex (l ++ [r]) = insertRow (buildIndex l) r := by
  unfold buildIndex
  rw [List.foldl_append]
  rfl

theorem processInternal_length (pm : KeyedIndex) :
    ∀ l : KeyedIndex,
      (processInternal pm l).1.length + (processInternal pm l).2.1.length
        + (processInternal pm l).2.2.length = l.length := by
  intro l
  induction l with
  | nil => rfl
  | cons e rest ih =>
    obtain ⟨ref, iRow⟩ := e
    unfold processInternal
    cases mapLookup pm ref with
    | none => simpa using by omega
    | some pRow =>
      cases hf : (mkMatchData ref iRow pRow).fully_matched with
      | true => simp only [hf, if_true, List.length_cons]; omega
      | false => simp only [hf, Bool.false_eq_true, if_false, List.length_cons]; omega

theorem mkMatchData_ref (ref : String) (iRow pRow : Row) :
    (mkMatchData ref iRow pRow).transaction_reference = ref := rfl

theorem mkMatchData_internal (ref : String) (iRow pRow : Row) :
    (mkMatchData ref iRow pRow).internal = iRow := rfl

theorem mkMatchData_provider (ref : String) (iRow pRow : Row) :
    (mkMatchData ref iRow pRow).provider = some pRow := rfl

theorem mkMatchData_amount (ref : String) (iRow pRow : Row) :
    (mkMatchData ref iRow pRow).amount_match = amountMatch iRow pRow := rfl

theorem mkMatchData_status (ref : String) (iRow pRow : Row) :
    (mkMatchData ref iRow pRow).status_match = statusMatch iRow pRow := rfl

theorem mkMatchData_fully (ref : String) (iRow pRow : Row) :
    (mkMatchData ref iRow pRow).fully_matched
      = ((mkMatchData ref iRow pRow).amount_match
        && (mkMatchData ref iRow pRow).status_match) := rfl

theorem processInternal_io (pm : KeyedIndex) :
    ∀ l : KeyedIndex,
      (processInternal pm l).2.2
        = (l.filter (fun e => !(mapHas pm e.1))).map Prod.snd := by
  intro l
  induction l with
  | nil => rfl
  | cons e rest ih =>
    obtain ⟨ref, iRow⟩ := e
    unfold processInternal
    cases hL : mapLookup pm ref with
    | none =>
      have hhas : mapHas pm ref = false := (mapLookup_eq_none_iff pm ref).1 hL
      simp only [List.filter_cons, hhas, Bool.not_false, if_true, List.map_cons]
      rw [← ih]
    | some pRow =>
      have hhas : mapHas pm ref = true := by
        have := mapLookup_isSome pm ref
        rw [hL] at this
        simpa using this.symm
      cases hf : (mkMatchData ref iRow pRow).fully_matched with
      | true =>
        simp only [hf, if_true, List.filter_cons, hhas, Bool.not_true, Bool.false_eq_true,
          if_false]
        exact ih
      | false =>
        simp only [hf, Bool.false_eq_true, if_false, List.filter_cons, hhas, Bool.not_true]
        exact ih

theorem processInternal_countP (pm : KeyedIndex) (k : String) :
    ∀ l : KeyedIndex,
      (processInternal pm l).1.countP (fun md => md.transaction_reference == k)
        + (processInternal pm l).2.1.countP (fun md => md.transaction_reference == k)
        = l.countP (fun e => (e.1 == k) && mapHas pm e.1) := by
  intro l
  induction l with
  | nil => rfl
  | cons e rest ih =>
    obtain ⟨ref, iRow⟩ := e
    unfold processInternal
    cases hL : mapLookup pm ref with
    | none =>
      have hhas : mapHas pm ref = false := (mapLookup_eq_none_iff pm ref).1 hL
      rw [List.countP_cons]
      simp only [hhas, Bool.and_false]
      simpa using ih
    | some pRow =>
      have hhas : mapHas pm ref = true := by
        have := mapLookup_isSome pm ref
        rw [hL] at this
        simpa using this.symm
      cases hf : (mkMatchData ref iRow pRow).fully_matched with
      | true =>
        simp only [hf, if_true]
        rw [List.countP_cons, List.countP_cons]
        simp only [mkMatchData_ref, hhas, Bool.and_true]
        omega
      | false =>
        simp only [hf, Bool.false_eq_true, if_false]
        rw [List.countP_cons, List.countP_cons]
        simp only [mkMatchData_ref, hhas, Bool.and_true]
        omega

theorem processInternal_matched_mem (pm : KeyedIndex) :
    ∀ l : KeyedIndex, ∀ md ∈ (processInternal pm l).1,
      ∃ ref iRow pRow, (ref, iRow) ∈ l ∧ mapLookup pm ref = some pRow
        ∧ md = mkMatchData ref iRow pRow ∧ md.fully_matched = true := by
  intro l
  induction l with
  | nil => intro md h; simp [processInternal] at h
  | cons e rest ih =>
    obtain ⟨ref, iRow⟩ := e
    intro md h
    unfold processInternal at h
    cases hL : mapLookup pm ref with
    | none =>
      rw [hL] at h
      dsimp only at h
      obtain ⟨r2, i2, p2, hmem, hlk, hmd, hf⟩ := ih md h
      exact ⟨r2, i2, p2, List.mem_cons_of_mem _ hmem, hlk, hmd, hf⟩
    | some pRow =>
      rw [hL] at h
      dsimp only at h
      cases hf : (mkMatchData ref iRow pRow).fully_matched with
      | true =>
        simp only [hf, eq_self_iff_true, if_true] at h
        rcases List.mem_cons.1 h with h1 | h1
        · exact ⟨ref, iRow, pRow, List.mem_cons_self _ _, hL, h1, h1 ▸ hf⟩
        · obtain ⟨r2, i2, p2, hmem, hlk, hmd, hfm⟩ := ih md h1
          exact ⟨r2, i2, p2, List.mem_cons_of_mem _ hmem, hlk, hmd, hfm⟩
      | false =>
        rw [hf] at h
        simp only [Bool.false_eq_true, if_false] at h
        obtain ⟨r2, i2, p2, hmem, hlk, hmd, hfm⟩ := ih md h
        exact ⟨r2, i2, p2, List.mem_cons_of_mem _ hmem, hlk, hmd, hfm⟩

theorem processInternal_mismatched_mem (pm : KeyedIndex) :
    ∀ l : KeyedIndex, ∀ md ∈ (processInternal pm l).2.1,
      ∃ ref iRow pRow, (ref, iRow) ∈ l ∧ mapLookup pm ref = some pRow
        ∧ md = mkMatchData ref iRow pRow ∧ md.fully_matched = false := by
  intro l
  induction l with
  | nil => intro md h; simp [processInternal] at h
  | cons e rest ih =>
    obtain ⟨ref, iRow⟩ := e
    intro md h
    unfold processInternal at h
    cases hL : mapLookup pm ref with
    | none =>
      rw [hL] at h
      dsimp only at h
      obtain ⟨r2, i2, p2, hmem, hlk, hmd, hf⟩ := ih md h
      exact ⟨r2, i2, p2, List.mem_cons_of_mem _ hmem, hlk, hmd, hf⟩
    | some pRow =>
      rw [hL] at h
      dsimp only at h
      cases hf : (mkMatchData ref iRow pRow).fully_matched with
      | true =>
        simp only [hf, eq_self_iff_true, if_true] at h
        obtain ⟨r2, i2, p2, hmem, hlk, hmd, hfm⟩ := ih md h
        exact ⟨r2, i2, p2, List.mem_cons_of_mem _ hmem, hlk, hmd, hfm⟩
      | false =>
        rw [hf] at h
        simp only [Bool.false_eq_true, if_false] at h
        rcases List.mem_cons.1 h with h1 | h1
        · exact ⟨ref, iRow, pRow, List.mem_cons_self _ _, hL, h1, h1 ▸ hf⟩
        · obtain ⟨r2, i2, p2, hmem, hlk, hmd, hfm⟩ := ih md h1
          exact ⟨r2, i2, p2, List.mem_cons_of_mem _ hmem, hlk, hmd, hfm⟩

theorem processInternal_match_length (pm : KeyedIndex) :
    ∀ l : KeyedIndex,
      (processInternal pm l).1.length + (processInternal pm l).2.1.length
        = l.countP (fun e => mapHas pm e.1) := by
  intro l
  induction l with
  | nil => rfl
  | cons e rest ih =>
    obtain ⟨ref, iRow⟩ := e
    unfold processInternal
    cases hL : mapLookup pm ref with
    | none =>
      have hhas : mapHas pm ref = false := (mapLookup_eq_none_iff pm ref).1 hL
      dsimp only
      rw [List.countP_cons]
      simp only [hhas]
      simpa using ih
    | some pRow =>
      have hhas : mapHas pm ref = true := by
        have := mapLookup_isSome pm ref
        rw [hL] at this
        simpa using this.symm
      dsimp only
      cases hf : (mkMatchData ref iRow pRow).fully_matched with
      | true =>
        simp only [hf, eq_self_iff_true, if_true]
        rw [List.countP_cons]
        simp only [hhas, eq_self_iff_true, if_true, List.length_cons]
        omega
      | false =>
        simp only [hf, Bool.false_eq_true, if_false]
        rw [List.countP_cons]
        simp only [hhas, eq_self_iff_true, if_true, List.length_cons]
        omega

theorem processInternal_nil_pm :
    ∀ l : KeyedIndex, processInternal [] l = ([], [], l.map Prod.snd) := by
  intro l
  induction l with
  | nil => rfl
  | cons e rest ih =>
    obtain ⟨ref, iRow⟩ := e
    unfold processInternal
    rw [ih]
    rfl

theorem countP_fst_key (l : KeyedIndex) (k : String)
    (hnd : (l.map Prod.fst).Nodup) :
    l.countP (fun e => e.1 == k)
      = if k ∈ l.map Prod.fst then 1 else 0 := by
  by_cases hmem : k ∈ l.map Prod.fst
  · rw [if_pos hmem]
    have h1 : l.countP (fun e => e.1 == k)
        = (l.map Prod.fst).countP (fun a => a == k) := by
      rw [List.countP_map]
      rfl
    rw [h1]
    have h2 : (l.map Prod.fst).countP (fun a => a == k)
        = (l.map Prod.fst).count k := rfl
    rw [h2]
    exact List.count_eq_one_of_mem hnd hmem
  · rw [if_neg hmem]
    rw [List.countP_eq_zero]
    intro e he hk
    simp only [beq_iff_eq] at hk
    exact hmem (List.mem_map.2 ⟨e, he, hk⟩)

theorem countP_fst_and (l : KeyedIndex) (k : String) (q : String → Bool)
    (hnd : (l.map Prod.fst).Nodup) :
    l.countP (fun e => (e.1 == k) && q e.1)
      = if k ∈ l.map Prod.fst ∧ q k = true then 1 else 0 := by
  have hcong : l.countP (fun e => (e.1 == k) && q e.1)
      = l.countP (fun e => (e.1 == k) && q k) := by
    apply List.countP_congr
    intro e _
    by_cases hek : e.1 = k
    · subst hek; rfl
    · constructor
      · intro hq
        simp only [Bool.and_eq_true, beq_iff_eq] at hq
        exact absurd hq.1 hek
      · intro hq
        simp only [Bool.and_eq_true, beq_iff_eq] at hq
        exact absurd hq.1 hek
  rw [hcong]
  cases hq : q k with
  | true =>
    simp only [Bool.and_true]
    rw [countP_fst_key l k hnd]
    by_cases hmem : k ∈ l.map Prod.fst
    · rw [if_pos hmem, if_pos ⟨hmem, trivial⟩]
    · rw [if_neg hmem, if_neg (fun hc => hmem hc.1)]
  | false =>
    rw [if_neg (fun hc => Bool.false_ne_true hc.2)]
    simp

theorem mapLookup_of_mem_nodup {m : KeyedIndex} {k : String} {v : Row}
    (hnd : (m.map Prod.fst).Nodup) (h : (k, v) ∈ m) :
    mapLookup m k = some v := by
  induction m with
  | nil => simp at h
  | cons p rest ih =>
    rw [List.map_cons, List.nodup_cons] at hnd
    rcases List.mem_cons.1 h with h1 | h1
    · subst h1
      unfold mapLookup
      rw [List.find?_cons]
      simp
    · have hp : (p.1 == k) = false := by
        rw [beq_eq_false_iff_ne]
        intro he
        exact hnd.1 (he ▸ List.mem_map.2 ⟨(k, v), h1, rfl⟩)
      unfold mapLookup
      rw [List.find?_cons]
      simp only [hp]
      exact ih hnd.2 h1

theorem mapHas_append (a b : KeyedIndex) (k : String) :
    mapHas (a ++ b) k = (mapHas a k || mapHas b k) := by
  simp [mapHas, List.any_append]

theorem counthas_card (A B : List String) (hA : A.Nodup) :
    (A.filter (fun k => decide (k ∈ B))).length = (A.toFinset ∩ B.toFinset).card := by
  have hnd : (A.filter (fun k => decide (k ∈ B))).Nodup := hA.filter _
  rw [← List.toFinset_card_of_nodup hnd]
  congr 1
  rw [List.toFinset_filter]
  ext a
  simp [List.mem_toFinset, Finset.mem_filter, Finset.mem_inter]

theorem counthas_comm (im pm : KeyedIndex)
    (hi : (im.map Prod.fst).Nodup) (hp : (pm.map Prod.fst).Nodup) :
    im.countP (fun e => mapHas pm e.1) = pm.countP (fun e => mapHas im e.1) := by
  have h1 : im.countP (fun e => mapHas pm e.1)
      = (im.map Prod.fst).countP (fun k => mapHas pm k) := by
    rw [List.countP_map]
    rfl
  have h2 : pm.countP (fun e => mapHas im e.1)
      = (pm.map Prod.fst).countP (fun k => mapHas im k) := by
    rw [List.countP_map]
    rfl
  rw [h1, h2]
  have h3 : (im.map Prod.fst).countP (fun k => mapHas pm k)
      = (im.map Prod.fst).countP (fun k => decide (k ∈ pm.map Prod.fst)) := by
    apply List.countP_congr
    intro a _
    simp [mapHas_iff_mem]
  have h4 : (pm.map Prod.fst).countP (fun k => mapHas im k)
      = (pm.map Prod.fst).countP (fun k => decide (k ∈ im.map Prod.fst)) := by
    apply List.countP_congr
    intro a _
    simp [mapHas_iff_mem]
  rw [h3, h4, List.countP_eq_length_filter, List.countP_eq_length_filter]
  rw [counthas_card _ _ hi, counthas_card _ _ hp]
  rw [Finset.inter_comm]

theorem io_countP (pm : KeyedIndex) (l : KeyedIndex) (k : String)
    (hinv : ∀ e ∈ l, extractKey e.2 = some e.1) :
    (processInternal pm l).2.2.countP (fun row => decide (extractKey row = some k))
      = l.countP (fun e => (e.1 == k) && !(mapHas pm e.1)) := by
  rw [processInternal_io, List.countP_map, List.countP_filter]
  apply List.countP_congr
  intro e he
  simp only [Function.comp_apply, hinv e he, Option.some_inj, Bool.and_eq_true,
    decide_eq_true_eq, Bool.not_eq_true', beq_iff_eq]

theorem po_countP (im pm : KeyedIndex) (k : String)
    (hinv : ∀ e ∈ pm, extractKey e.2 = some e.1) :
    (processProvider im pm).countP (fun row => decide (extractKey row = some k))
      = pm.countP (fun e => (e.1 == k) && !(mapHas im e.1)) := by
  unfold processProvider
  rw [List.countP_map, List.countP_filter]
  apply List.countP_congr
  intro e he
  simp only [Function.comp_apply, hinv e he, Option.some_inj, Bool.and_eq_true,
    decide_eq_true_eq, Bool.not_eq_true', beq_iff_eq]

theorem buildIndexFrom_of_fresh :
    ∀ (rows : List Row) (m : KeyedIndex),
      (rows.filterMap extractKey).Nodup →
      (∀ k, k ∈ rows.filterMap extractKey → mapHas m k = false) →
      rows.foldl insertRow m
        = m ++ rows.filterMap (fun r => (extractKey r).map (fun k => (k, r))) := by
  intro rows
  induction rows with
  | nil => intro m _ _; simp
  | cons r rest ih =>
    intro m hnd hfresh
    cases hk : extractKey r with
    | none =>
      have hstep : insertRow m r = m := by unfold insertRow; rw [hk]
      have hfm : rest.filterMap extractKey = (r :: rest).filterMap extractKey := by
        rw [List.filterMap_cons_none hk]
      rw [List.foldl_cons, hstep]
      rw [ih m (hfm ▸ hnd) (fun k hkm => hfresh k (hfm ▸ hkm))]
      rw [List.filterMap_cons_none (by simp [hk])]
    | some key =>
      have hkm : key ∈ (r :: rest).filterMap extractKey := by
        rw [List.filterMap_cons_some hk]
        exact List.mem_cons_self _ _
      have hfr : mapHas m key = false := hfresh key hkm
      have hstep : insertRow m r = m ++ [(key, r)] := by
        unfold insertRow
        rw [hk]
        dsimp only
        unfold mapSet
        rw [hfr]
        simp
      have hnd2 : (rest.filterMap extractKey).Nodup := by
        rw [List.filterMap_cons_some hk] at hnd
        exact (List.nodup_cons.1 hnd).2
      have hnotin : key ∉ rest.filterMap extractKey := by
        rw [List.filterMap_cons_some hk] at hnd
        exact (List.nodup_cons.1 hnd).1
      have hfresh2 : ∀ k, k ∈ rest.filterMap extractKey
          → mapHas (m ++ [(key, r)]) k = false := by
        intro k hkmem
        rw [mapHas_append]
        have h1 : mapHas m k = false :=
          hfresh k (by rw [List.filterMap_cons_some hk]; exact List.mem_cons_of_mem _ hkmem)
        have h2 : mapHas [(key, r)] k = false := by
          simp only [mapHas, List.any_cons, List.any_nil, Bool.or_false]
          rw [beq_eq_false_iff_ne]
          intro he
          exact hnotin (he ▸ hkmem)
        rw [h1, h2]
        rfl
      rw [List.foldl_cons, hstep, ih (m ++ [(key, r)]) hnd2 hfresh2]
      rw [@List.filterMap_cons_some Row (String × Row)
        (fun r => (extractKey r).map (fun k => (k, r))) r rest (key, r) (by simp [hk])]
      simp

theorem buildIndex_of_nodup (rows : List Row)
    (hnd : (rows.filterMap extractKey).Nodup) :
    buildIndex rows
      = rows.filterMap (fun r => (extractKey r).map (fun k => (k, r))) := by
  unfold buildIndex
  rw [buildIndexFrom_of_fresh rows [] hnd (fun k _ => rfl)]
  simp

theorem reconcile_matched_def (i p : List Row) :
    (reconcileTransactions i p).matched
      = (processInternal (buildIndex p) (buildIndex i)).1 := rfl

theorem reconcile_mismatched_def (i p : List Row) :
    (reconcileTransactions i p).mismatched
      = (processInternal (buildIndex p) (buildIndex i)).2.1 := rfl

theorem reconcile_io_def (i p : List Row) :
    (reconcileTransactions i p).internal_only
      = (processInternal (buildIndex p) (buildIndex i)).2.2 := rfl

theorem reconcile_po_def (i p : List Row) :
    (reconcileTransactions i p).provider_only
      = processProvider (buildIndex i) (buildIndex p) := rfl

theorem internal_only_mem {iData pData : List Row} {row : Row}
    (h : row ∈ (reconcileTransactions iData pData).internal_only) :
    ∃ e, e ∈ buildIndex iData ∧ mapHas (buildIndex pData) e.1 = false
      ∧ row = e.2 := by
  rw [reconcile_io_def, processInternal_io] at h
  obtain ⟨e, he, hrow⟩ := List.mem_map.1 h
  rw [List.mem_filter] at he
  refine ⟨e, he.1, ?_, hrow.symm⟩
  have := he.2
  cases hh : mapHas (buildIndex pData) e.1
  · rfl
  · rw [hh] at this
    simp at this

theorem provider_only_mem {iData pData : List Row} {row : Row}
    (h : row ∈ (reconcileTransactions iData pData).provider_only) :
    ∃ e, e ∈ buildIndex pData ∧ mapHas (buildIndex iData) e.1 = false
      ∧ row = e.2 := by
  rw [reconcile_po_def] at h
  unfold processProvider at h
  obtain ⟨e, he, hrow⟩ := List.mem_map.1 h
  rw [List.mem_filter] at he
  refine ⟨e, he.1, ?_, hrow.symm⟩
  have := he.2
  cases hh : mapHas (buildIndex iData) e.1
  · rfl
  · rw [hh] at this
    simp at this

theorem matchrec_mem {iData pData : List Row} {md : MatchRecord}
    (h : md ∈ (reconcileTransactions iData pData).matched
      ++ (reconcileTransactions iData pData).mismatched) :
    ∃ ref iRow pRow, (ref, iRow) ∈ buildIndex iData
      ∧ mapLookup (buildIndex pData) ref = some pRow
      ∧ md = mkMatchData ref iRow pRow := by
  rcases List.mem_append.1 h with h1 | h1
  · rw [reconcile_matched_def] at h1
    obtain ⟨ref, iRow, pRow, hmem, hlk, hmd, _⟩ :=
      processInternal_matched_mem _ _ md h1
    exact ⟨ref, iRow, pRow, hmem, hlk, hmd⟩
  · rw [reconcile_mismatched_def] at h1
    obtain ⟨ref, iRow, pRow, hmem, hlk, hmd, _⟩ :=
      processInternal_mismatched_mem _ _ md h1
    exact ⟨ref, iRow, pRow, hmem, hlk, hmd⟩

theorem keyless_excluded (iData pData : List Row) (r : Row)
    (hr : extractKey r = none) :
    (∀ e ∈ buildIndex iData, e.2 ≠ r)
    ∧ r ∉ (reconcileTransactions iData pData).internal_only
    ∧ r ∉ (reconcileTransactions iData pData).provider_only
    ∧ ∀ md ∈ (reconcileTransactions iData pData).matched
        ++ (reconcileTransactions iData pData).mismatched,
        md.internal ≠ r ∧ md.provider ≠ some r := by
  refine ⟨?_, ?_, ?_, ?_⟩
  · intro e he hcontra
    have := buildIndex_mem_key he
    rw [hcontra, hr] at this
    exact Option.noConfusion this
  · intro hmem
    obtain ⟨e, he, _, hrow⟩ := internal_only_mem hmem
    have := buildIndex_mem_key he
    rw [← hrow, hr] at this
    exact Option.noConfusion this
  · intro hmem
    obtain ⟨e, he, _, hrow⟩ := provider_only_mem hmem
    have := buildIndex_mem_key he
    rw [← hrow, hr] at this
    exact Option.noConfusion this
  · intro md hmd
    obtain ⟨ref, iRow, pRow, hmem, hlk, hmdeq⟩ := matchrec_mem hmd
    constructor
    · rw [hmdeq, mkMatchData_internal]
      intro hcontra
      have := buildIndex_mem_key hmem
      simp only at this
      rw [hcontra, hr] at this
      exact Option.noConfusion this
    · rw [hmdeq, mkMatchData_provider]
      intro hcontra
      have hpmem := mapLookup_mem hlk
      have := buildIndex_mem_key hpmem
      simp only at this
      rw [Option.some_inj.1 hcontra, hr] at this
      exact Option.noConfusion this

/-- Claim C9: reconcile is a deterministic pure function of its two inputs;
two calls on the same sequences give structurally identical Results.  The
embedding of reconcileTransactions is a pure function of exactly the two row
sequences (the JS method reads no instance or global state in lines 73 to
151), so the two invocations are definitionally equal. -/
theorem claimC9_deterministic (iData pData : List Row) :
    reconcileTransactions iData pData = reconcileTransactions iData pData := rfl

/-- Claim C8: reconcile is total and raises no errors (it is a total Lean
function); on an empty internal input the internal-side categories are empty
and the internal counts are zero, and symmetrically for an empty provider
input. -/
theorem claimC8_total_on_empty (iData pData : List Row) :
    ((reconcileTransactions [] pData).matched = []
      ∧ (reconcileTransactions [] pData).mismatched = []
      ∧ (reconcileTransactions [] pData).internal_only = []
      ∧ (reconcileTransactions [] pData).summary.total_internal = 0
      ∧ (reconcileTransactions [] pData).summary.matched_count = 0
      ∧ (reconcileTransactions [] pData).summary.mismatched_count = 0
      ∧ (reconcileTransactions [] pData).summary.internal_only_count = 0)
    ∧ ((reconcileTransactions iData []).matched = []
      ∧ (reconcileTransactions iData []).mismatched = []
      ∧ (reconcileTransactions iData []).provider_only = []
      ∧ (reconcileTransactions iData []).summary.total_provider = 0
      ∧ (reconcileTransactions iData []).summary.matched_count = 0
      ∧ (reconcileTransactions iData []).summary.mismatched_count = 0
      ∧ (reconcileTransactions iData []).summary.provider_only_count = 0) := by
  constructor
  · exact ⟨rfl, rfl, rfl, rfl, rfl, rfl, rfl⟩
  · have hnil := processInternal_nil_pm (buildIndex iData)
    refine ⟨?_, ?_, rfl, rfl, ?_, ?_, rfl⟩
    · rw [reconcile_matched_def]
      show (processInternal [] (buildIndex iData)).1 = []
      rw [hnil]
    · rw [reconcile_mismatched_def]
      show (processInternal [] (buildIndex iData)).2.1 = []
      rw [hnil]
    · show (processInternal [] (buildIndex iData)).1.length = 0
      rw [hnil]
      rfl
    · show (processInternal [] (buildIndex iData)).2.1.length = 0
      rw [hnil]
      rfl

/-- Claim C5: within one side a later duplicate key overwrites the earlier
row in the index while the key keeps its first-occurrence position, and only
one match record is produced per key; in Scenario D the surviving internal
row is the one with amount 2 and it fully matches the provider row. -/
theorem claimC5_last_write_wins :
    (∀ (l : List Row) (r : Row) (k : String), extractKey r = some k →
      mapLookup (buildIndex (l ++ [r])) k = some r)
    ∧ (∀ (l : List Row) (r : Row) (k : String), extractKey r = some k →
      mapHas (buildIndex l) k = true →
      (buildIndex (l ++ [r])).map Prod.fst = (buildIndex l).map Prod.fst)
    ∧ ((reconcileTransactions
          [[("id", "T4"), ("amount", "1")], [("id", "T4"), ("amount", "2")]]
          [[("id", "T4"), ("amount", "2")]]).matched.map
            (fun md => md.internal) = [[("id", "T4"), ("amount", "2")]]
      ∧ (reconcileTransactions
          [[("id", "T4"), ("amount", "1")], [("id", "T4"), ("amount", "2")]]
          [[("id", "T4"), ("amount", "2")]]).matched.length = 1
      ∧ (reconcileTransactions
          [[("id", "T4"), ("amount", "1")], [("id", "T4"), ("amount", "2")]]
          [[("id", "T4"), ("amount", "2")]]).mismatched = []
      ∧ (reconcileTransactions
          [[("id", "T4"), ("amount", "1")], [("id", "T4"), ("amount", "2")]]
          [[("id", "T4"), ("amount", "2")]]).internal_only = []
      ∧ (reconcileTransactions
          [[("id", "T4"), ("amount", "1")], [("id", "T4"), ("amount", "2")]]
          [[("id", "T4"), ("amount", "2")]]).provider_only = []) := by
  refine ⟨?_, ?_, ?_⟩
  · intro l r k hk
    rw [buildIndex_append_singleton]
    unfold insertRow
    rw [hk]
    exact mapLookup_mapSet_self _ _ _
  · intro l r k hk hhas
    rw [buildIndex_append_singleton]
    unfold insertRow
    rw [hk]
    exact mapSet_map_fst_of_has _ _ _ hhas
  · with_unfolding_all decide

theorem claimC5_last_write_wins_witness :
    mapLookup (buildIndex
      ([[("id", "T4"), ("amount", "1")]] ++ [[("id", "T4"), ("amount", "2")]])) "T4"
      = some [("id", "T4"), ("amount", "2")] :=
  claimC5_last_write_wins.1 [[("id", "T4"), ("amount", "1")]]
    [("id", "T4"), ("amount", "2")] "T4" (by with_unfolding_all decide)

/-- Claim C1: for every key present in both keyed indexes, exactly one match
record with that key is produced, every produced record has fully_matched
equal to amount_match AND status_match, matched holds the fully matched ones
and mismatched the others, and no row of such a key reaches internal_only or
provider_only. -/
theorem claimC1_both_sides_join (iData pData : List Row) (k : String)
    (hi : mapHas (buildIndex iData) k = true)
    (hp : mapHas (buildIndex pData) k = true) :
    ((reconcileTransactions iData pData).matched
        ++ (reconcileTransactions iData pData).mismatched).countP
          (fun md => md.transaction_reference == k) = 1
    ∧ (∀ md ∈ (reconcileTransactions iData pData).matched,
        md.fully_matched = true
          ∧ md.fully_matched = (md.amount_match && md.status_match))
    ∧ (∀ md ∈ (reconcileTransactions iData pData).mismatched,
        md.fully_matched = false
          ∧ md.fully_matched = (md.amount_match && md.status_match))
    ∧ (∀ row ∈ (reconcileTransactions iData pData).internal_only,
        extractKey row ≠ some k)
    ∧ (∀ row ∈ (reconcileTransactions iData pData).provider_only,
        extractKey row ≠ some k) := by
  refine ⟨?_, ?_, ?_, ?_, ?_⟩
  · rw [List.countP_append, reconcile_matched_def, reconcile_mismatched_def]
    rw [processInternal_countP]
    rw [countP_fst_and _ _ _ (buildIndex_nodup iData)]
    rw [if_pos ⟨(mapHas_iff_mem _ _).1 hi, hp⟩]
  · intro md hmd
    rw [reconcile_matched_def] at hmd
    obtain ⟨ref, iRow, pRow, _, _, hmdeq, hf⟩ :=
      processInternal_matched_mem _ _ md hmd
    exact ⟨hf, by rw [hmdeq]; exact mkMatchData_fully ref iRow pRow⟩
  · intro md hmd
    rw [reconcile_mismatched_def] at hmd
    obtain ⟨ref, iRow, pRow, _, _, hmdeq, hf⟩ :=
      processInternal_mismatched_mem _ _ md hmd
    exact ⟨hf, by rw [hmdeq]; exact mkMatchData_fully ref iRow pRow⟩
  · intro row hrow hkey
    obtain ⟨e, he, hhas, hroweq⟩ := internal_only_mem hrow
    have hek := buildIndex_mem_key he
    rw [← hroweq] at hek
    rw [hek] at hkey
    have : e.1 = k := Option.some_inj.1 hkey
    rw [this] at hhas
    rw [hp] at hhas
    exact Bool.noConfusion hhas
  · intro row hrow hkey
    obtain ⟨e, he, hhas, hroweq⟩ := provider_only_mem hrow
    have hek := buildIndex_mem_key he
    rw [← hroweq] at hek
    rw [hek] at hkey
    have : e.1 = k := Option.some_inj.1 hkey
    rw [this] at hhas
    rw [hi] at hhas
    exact Bool.noConfusion hhas

theorem claimC1_both_sides_join_witness :
    ((reconcileTransactions
        [[("id", "T1"), ("amount", "10.00"), ("status", "Completed")]]
        [[("id", "T1"), ("amount", "10.00"), ("status", "completed")]]).matched
      ++ (reconcileTransactions
        [[("id", "T1"), ("amount", "10.00"), ("status", "Completed")]]
        [[("id", "T1"), ("amount", "10.00"), ("status", "completed")]]).mismatched).countP
          (fun md => md.transaction_reference == "T1") = 1 :=
  (claimC1_both_sides_join
    [[("id", "T1"), ("amount", "10.00"), ("status", "Completed")]]
    [[("id", "T1"), ("amount", "10.00"), ("status", "completed")]] "T1"
    (by with_unfolding_all decide) (by with_unfolding_all decide)).1

theorem countP_not_add (l : KeyedIndex) (p : String × Row → Bool) :
    l.countP p + l.countP (fun e => !(p e)) = l.length := by
  induction l with
  | nil => rfl
  | cons e rest ih =>
    rw [List.countP_cons, List.countP_cons]
    cases hp : p e with
    | true =>
      simp only [hp, Bool.not_true, eq_self_iff_true, if_true, Bool.false_eq_true,
        if_false, List.length_cons]
      omega
    | false =>
      simp only [hp, Bool.not_false, eq_self_iff_true, if_true, Bool.false_eq_true,
        if_false, List.length_cons]
      omega

/-- Claim C7: matched + mismatched + internal_only counts equal the size of
the deduplicated internal index, which is at most total_internal; the
analogous identity holds on the provider side; a row with no usable key is
absent from every output category yet counted in the raw totals. -/
theorem claimC7_conservation (iData pData : List Row) (r : Row)
    (hr : extractKey r = none) :
    ((reconcileTransactions iData pData).matched.length
        + (reconcileTransactions iData pData).mismatched.length
        + (reconcileTransactions iData pData).internal_only.length
      = (buildIndex iData).length)
    ∧ ((reconcileTransactions iData pData).matched.length
        + (reconcileTransactions iData pData).mismatched.length
        + (reconcileTransactions iData pData).provider_only.length
      = (buildIndex pData).length)
    ∧ (buildIndex iData).length ≤ iData.length
    ∧ (buildIndex pData).length ≤ pData.length
    ∧ (reconcileTransactions iData pData).summary.total_internal = iData.length
    ∧ (reconcileTransactions iData pData).summary.total_provider = pData.length
    ∧ r ∉ (reconcileTransactions iData pData).internal_only
    ∧ r ∉ (reconcileTransactions iData pData).provider_only
    ∧ (∀ md ∈ (reconcileTransactions iData pData).matched
        ++ (reconcileTransactions iData pData).mismatched,
        md.internal ≠ r ∧ md.provider ≠ some r) := by
  have hx := keyless_excluded iData pData r hr
  refine ⟨?_, ?_, buildIndex_length_le iData, buildIndex_length_le pData,
    rfl, rfl, hx.2.1, hx.2.2.1, hx.2.2.2⟩
  · rw [reconcile_matched_def, reconcile_mismatched_def, reconcile_io_def]
    exact processInternal_length _ _
  · rw [reconcile_matched_def, reconcile_mismatched_def, reconcile_po_def]
    have h1 : (processInternal (buildIndex pData) (buildIndex iData)).1.length
        + (processInternal (buildIndex pData) (buildIndex iData)).2.1.length
        = (buildIndex iData).countP (fun e => mapHas (buildIndex pData) e.1) :=
      processInternal_match_length _ _
    have h2 : (buildIndex iData).countP (fun e => mapHas (buildIndex pData) e.1)
        = (buildIndex pData).countP (fun e => mapHas (buildIndex iData) e.1) :=
      counthas_comm _ _ (buildIndex_nodup iData) (buildIndex_nodup pData)
    have h3 : (processProvider (buildIndex iData) (buildIndex pData)).length
        = (buildIndex pData).countP (fun e => !(mapHas (buildIndex iData) e.1)) := by
      unfold processProvider
      rw [List.length_map, ← List.countP_eq_length_filter]
    have h4 := countP_not_add (buildIndex pData)
      (fun e => mapHas (buildIndex iData) e.1)
    omega

theorem claimC7_conservation_witness :
    (reconcileTransactions
      [[("id", "T1"), ("amount", "5")], [("note", "x")]]
      [[("id", "T9"), ("amount", "5")]]).matched.length
      + (reconcileTransactions
      [[("id", "T1"), ("amount", "5")], [("note", "x")]]
      [[("id", "T9"), ("amount", "5")]]).mismatched.length
      + (reconcileTransactions
      [[("id", "T1"), ("amount", "5")], [("note", "x")]]
      [[("id", "T9"), ("amount", "5")]]).internal_only.length
      = (buildIndex [[("id", "T1"), ("amount", "5")], [("note", "x")]]).length :=
  (claimC7_conservation
    [[("id", "T1"), ("amount", "5")], [("note", "x")]]
    [[("id", "T9"), ("amount", "5")]]
    [("note", "x")] (by with_unfolding_all decide)).1

/-- Claim C10: every record in matched or mismatched carries both rows (the
provider row is never absent), and each extracted key lands in exactly one
output category: matched or mismatched when it is in both indexes,
internal_only when only internal, provider_only when only provider. -/
theorem claimC10_partition (iData pData : List Row) (k : String) :
    (∀ md ∈ (reconcileTransactions iData pData).matched
        ++ (reconcileTransactions iData pData).mismatched,
      ∃ pRow, md.provider = some pRow)
    ∧ (mapHas (buildIndex iData) k = true → mapHas (buildIndex pData) k = true →
        ((reconcileTransactions iData pData).matched
          ++ (reconcileTransactions iData pData).mismatched).countP
            (fun md => md.transaction_reference == k) = 1
        ∧ (reconcileTransactions iData pData).internal_only.countP
            (fun row => decide (extractKey row = some k)) = 0
        ∧ (reconcileTransactions iData pData).provider_only.countP
            (fun row => decide (extractKey row = some k)) = 0)
    ∧ (mapHas (buildIndex iData) k = true → mapHas (buildIndex pData) k = false →
        ((reconcileTransactions iData pData).matched
          ++ (reconcileTransactions iData pData).mismatched).countP
            (fun md => md.transaction_reference == k) = 0
        ∧ (reconcileTransactions iData pData).internal_only.countP
            (fun row => decide (extractKey row = some k)) = 1
        ∧ (reconcileTransactions iData pData).provider_only.countP
            (fun row => decide (extractKey row = some k)) = 0)
    ∧ (mapHas (buildIndex iData) k = false → mapHas (buildIndex pData) k = true →
        ((reconcileTransactions iData pData).matched
          ++ (reconcileTransactions iData pData).mismatched).countP
            (fun md => md.transaction_reference == k) = 0
        ∧ (reconcileTransactions iData pData).internal_only.countP
            (fun row => decide (extractKey row = some k)) = 0
        ∧ (reconcileTransactions iData pData).provider_only.countP
            (fun row => decide (extractKey row = some k)) = 1) := by
  have hWmm : ((reconcileTransactions iData pData).matched
      ++ (reconcileTransactions iData pData).mismatched).countP
        (fun md => md.transaction_reference == k)
      = if k ∈ (buildIndex iData).map Prod.fst
          ∧ mapHas (buildIndex pData) k = true then 1 else 0 := by
    rw [List.countP_append, reconcile_matched_def, reconcile_mismatched_def,
      processInternal_countP, countP_fst_and _ _ _ (buildIndex_nodup iData)]
  have hWio : (reconcileTransactions iData pData).internal_only.countP
      (fun row => decide (extractKey row = some k))
      = if k ∈ (buildIndex iData).map Prod.fst
          ∧ (!(mapHas (buildIndex pData) k)) = true then 1 else 0 := by
    rw [reconcile_io_def,
      io_countP _ _ _ (fun e he => buildIndex_mem_key he),
      countP_fst_and (buildIndex iData) k
        (fun s => !(mapHas (buildIndex pData) s)) (buildIndex_nodup iData)]
  have hWpo : (reconcileTransactions iData pData).provider_only.countP
      (fun row => decide (extractKey row = some k))
      = if k ∈ (buildIndex pData).map Prod.fst
          ∧ (!(mapHas (buildIndex iData) k)) = true then 1 else 0 := by
    rw [reconcile_po_def,
      po_countP _ _ _ (fun e he => buildIndex_mem_key he),
      countP_fst_and (buildIndex pData) k
        (fun s => !(mapHas (buildIndex iData) s)) (buildIndex_nodup pData)]
  refine ⟨?_, ?_, ?_, ?_⟩
  · intro md hmd
    obtain ⟨ref, iRow, pRow, _, _, hmdeq⟩ := matchrec_mem hmd
    exact ⟨pRow, by rw [hmdeq, mkMatchData_provider]⟩
  · intro hi hp
    refine ⟨?_, ?_, ?_⟩
    · rw [hWmm, if_pos ⟨(mapHas_iff_mem _ _).1 hi, hp⟩]
    · rw [hWio, if_neg ?_]
      rintro ⟨-, hc⟩
      rw [hp] at hc
      exact Bool.noConfusion hc
    · rw [hWpo, if_neg ?_]
      rintro ⟨-, hc⟩
      rw [hi] at hc
      exact Bool.noConfusion hc
  · intro hi hp
    refine ⟨?_, ?_, ?_⟩
    · rw [hWmm, if_neg ?_]
      rintro ⟨-, hc⟩
      rw [hp] at hc
      exact Bool.noConfusion hc
    · rw [hWio, if_pos ⟨(mapHas_iff_mem _ _).1 hi, by rw [hp]; rfl⟩]
    · rw [hWpo, if_neg ?_]
      rintro ⟨hc, -⟩
      rw [← mapHas_iff_mem] at hc
      rw [hp] at hc
      exact Bool.noConfusion hc
  · intro hi hp
    refine ⟨?_, ?_, ?_⟩
    · rw [hWmm, if_neg ?_]
      rintro ⟨hc, -⟩
      rw [← mapHas_iff_mem] at hc
      rw [hi] at hc
      exact Bool.noConfusion hc
    · rw [hWio, if_neg ?_]
      rintro ⟨hc, -⟩
      rw [← mapHas_iff_mem] at hc
      rw [hi] at hc
      exact Bool.noConfusion hc
    · rw [hWpo, if_pos ⟨(mapHas_iff_mem _ _).1 hp, by rw [hi]; rfl⟩]

theorem claimC10_partition_witness :
    ((reconcileTransactions
        [[("id", "T1"), ("amount", "7"), ("status", "ok")]]
        [[("id", "T1"), ("amount", "7"), ("status", "OK ")]]).matched
      ++ (reconcileTransactions
        [[("id", "T1"), ("amount", "7"), ("status", "ok")]]
        [[("id", "T1"), ("amount", "7"), ("status", "OK ")]]).mismatched).countP
          (fun md => md.transaction_reference == "T1") = 1
    ∧ (reconcileTransactions
        [[("id", "T1"), ("amount", "7"), ("status", "ok")]]
        [[("id", "T1"), ("amount", "7"), ("status", "OK ")]]).internal_only.countP
          (fun row => decide (extractKey row = some "T1")) = 0
    ∧ (reconcileTransactions
        [[("id", "T1"), ("amount", "7"), ("status", "ok")]]
        [[("id", "T1"), ("amount", "7"), ("status", "OK ")]]).provider_only.countP
          (fun row => decide (extractKey row = some "T1")) = 0 :=
  (claimC10_partition
    [[("id", "T1"), ("amount", "7"), ("status", "ok")]]
    [[("id", "T1"), ("amount", "7"), ("status", "OK ")]] "T1").2.1
    (by with_unfolding_all decide) (by with_unfolding_all decide)

theorem amountMatch_eq_true_iff (iRow pRow : Row) :
    amountMatch iRow pRow = true
      ↔ ∃ a b, extractAmount iRow = some a ∧ extractAmount pRow = some b
          ∧ |a - b| < (1 / 100 : Rat) := by
  unfold amountMatch
  cases ha : extractAmount iRow with
  | none => simp [ha]
  | some a =>
    cases hb : extractAmount pRow with
    | none => simp [ha, hb]
    | some b => simp [ha, hb]

theorem statusMatch_eq_true_iff (iRow pRow : Row) :
    statusMatch iRow pRow = true ↔ extractStatus iRow = extractStatus pRow := by
  unfold statusMatch
  exact beq_iff_eq

/-- Claim C4 (counterexample to the claim as stated): with an unparsable
non-empty amount field on both sides the engine sets amount_match to false
(NaN comparisons are false), although both amounts parsed with the claimed
default of 0 differ by 0, which is less than 0.01. -/
theorem claimC4_amount_iff_counterexample :
    (reconcileTransactions [[("id", "T9"), ("amount", "xyz")]]
      [[("id", "T9"), ("amount", "xyz")]]).mismatched.map
        (fun md => md.amount_match) = [false]
    ∧ (reconcileTransactions [[("id", "T9"), ("amount", "xyz")]]
      [[("id", "T9"), ("amount", "xyz")]]).matched = []
    ∧ |claimAmount [("id", "T9"), ("amount", "xyz")]
        - claimAmount [("id", "T9"), ("amount", "xyz")]| < (1 / 100 : Rat) := by
  with_unfolding_all decide

/-- Claim C4 (amended): for a key in both indexes, the produced record has
amount_match true iff both amount fields yield an actual number (absent or
empty yields 0; a non-empty unparsable field yields NaN and can never
compare) and the two numbers differ by less than 0.01; status_match is true
iff the lower-cased trimmed status fields (defaulting to empty) are equal. -/
theorem claimC4_match_rules (iData pData : List Row) (k : String)
    (iRow pRow : Row)
    (hi : mapLookup (buildIndex iData) k = some iRow)
    (hp : mapLookup (buildIndex pData) k = some pRow) :
    ∀ md ∈ (reconcileTransactions iData pData).matched
        ++ (reconcileTransactions iData pData).mismatched,
      md.transaction_reference = k →
        (md.amount_match = true
          ↔ ∃ a b, extractAmount iRow = some a ∧ extractAmount pRow = some b
              ∧ |a - b| < (1 / 100 : Rat))
        ∧ (md.status_match = true
          ↔ extractStatus iRow = extractStatus pRow) := by
  intro md hmd hk
  obtain ⟨ref, iRow2, pRow2, hmem, hlk, hmdeq⟩ := matchrec_mem hmd
  have href : ref = k := by
    rw [hmdeq, mkMatchData_ref] at hk
    exact hk
  subst href
  have hieq : iRow2 = iRow := by
    have := mapLookup_of_mem_nodup (buildIndex_nodup iData) hmem
    rw [hi] at this
    exact Option.some_inj.1 this.symm
  have hpeq : pRow2 = pRow := by
    rw [hlk] at hp
    exact Option.some_inj.1 hp
  subst hieq
  subst hpeq
  constructor
  · rw [hmdeq, mkMatchData_amount]
    exact amountMatch_eq_true_iff _ _
  · rw [hmdeq, mkMatchData_status]
    exact statusMatch_eq_true_iff _ _

theorem claimC4_match_rules_witness :
    ((mkMatchData "T2" [("id", "T2"), ("amount", "10.00"), ("status", "Completed")]
        [("id", "T2"), ("amount", "10.50"), ("status", "Completed")]).amount_match = true
      ↔ ∃ a b,
          extractAmount [("id", "T2"), ("amount", "10.00"), ("status", "Completed")] = some a
          ∧ extractAmount [("id", "T2"), ("amount", "10.50"), ("status", "Completed")] = some b
          ∧ |a - b| < (1 / 100 : Rat))
    ∧ ((mkMatchData "T2" [("id", "T2"), ("amount", "10.00"), ("status", "Completed")]
        [("id", "T2"), ("amount", "10.50"), ("status", "Completed")]).status_match = true
      ↔ extractStatus [("id", "T2"), ("amount", "10.00"), ("status", "Completed")]
          = extractStatus [("id", "T2"), ("amount", "10.50"), ("status", "Completed")]) :=
  claimC4_match_rules
    [[("id", "T2"), ("amount", "10.00"), ("status", "Completed")]]
    [[("id", "T2"), ("amount", "10.50"), ("status", "Completed")]] "T2"
    [("id", "T2"), ("amount", "10.00"), ("status", "Completed")]
    [("id", "T2"), ("amount", "10.50"), ("status", "Completed")]
    (by with_unfolding_all decide) (by with_unfolding_all decide)
    (mkMatchData "T2" [("id", "T2"), ("amount", "10.00"), ("status", "Completed")]
      [("id", "T2"), ("amount", "10.50"), ("status", "Completed")])
    (by with_unfolding_all decide) rfl

/-- Claim C2 (counterexample to the claim as stated): when both rows of a
shared key carry the same non-empty unparsable amount field, amount_match is
false, not true: parseFloat yields NaN (not the claimed 0) and the NaN
comparison fails. -/
theorem claimC2_zero_default_counterexample :
    (reconcileTransactions [[("id", "T8"), ("amount", "abc")]]
      [[("id", "T8"), ("amount", "abc")]]).matched = []
    ∧ (reconcileTransactions [[("id", "T8"), ("amount", "abc")]]
      [[("id", "T8"), ("amount", "abc")]]).mismatched.map
        (fun md => md.amount_match) = [false]
    ∧ jsParseFloat "abc" = none := by
  with_unfolding_all decide

/-- Claim C2 (amended): an absent or empty amount field yields the number 0
(so two such rows have amount_match true), but a non-empty amount field with
no parsable numeric prefix yields NaN, and any NaN operand makes
amount_match false. -/
theorem claimC2_amount_default (r iRow pRow : Row) :
    (jsGet r "amount" = none → extractAmount r = some 0)
    ∧ (jsGet r "amount" = some "" → extractAmount r = some 0)
    ∧ (∀ s, jsGet r "amount" = some s → s ≠ "" → jsParseFloat s = none →
        extractAmount r = none)
    ∧ (extractAmount iRow = none ∨ extractAmount pRow = none →
        amountMatch iRow pRow = false)
    ∧ (extractAmount iRow = some 0 → extractAmount pRow = some 0 →
        amountMatch iRow pRow = true) := by
  refine ⟨?_, ?_, ?_, ?_, ?_⟩
  · intro h
    unfold extractAmount
    rw [h]
  · intro h
    unfold extractAmount
    rw [h]
    simp
  · intro s h hs hparse
    unfold extractAmount
    rw [h]
    dsimp only
    rw [if_neg hs]
    exact hparse
  · intro h
    unfold amountMatch
    rcases h with h | h
    · rw [h]
    · rw [h]
      cases extractAmount iRow <;> rfl
  · intro hi hp
    unfold amountMatch
    rw [hi, hp]
    with_unfolding_all decide

theorem claimC2_amount_default_witness :
    amountMatch [("id", "T8"), ("status", "ok")] [("id", "T8")] = true :=
  (claimC2_amount_default [("id", "T8")] [("id", "T8"), ("status", "ok")]
    [("id", "T8")]).2.2.2.2
    (by with_unfolding_all decide) (by with_unfolding_all decide)

/-- Claim C3 (counterexample to the claim as stated): a whitespace-only
transaction_reference is truthy, so the chain selects it and trims it to
empty, dropping the row, instead of passing over to the non-empty reference
field as the claim describes. -/
theorem claimC3_passover_counterexample :
    extractKey [("transaction_reference", "  "), ("reference", "R1")] = none
    ∧ claimKey [("transaction_reference", "  "), ("reference", "R1")] = some "R1" := by
  with_unfolding_all decide

/-- Claim C3 (amended): the key comes from the first of
transaction_reference, reference, id whose value is present and non-empty
before trimming (absent or empty-string fields are passed over, but a
whitespace-only field is selected); the chosen value is then trimmed, and
when it trims to empty the row yields no key; a keyless row is excluded from
the keyed index and from every output category. -/
theorem claimC3_key_priority (r : Row) (iData pData : List Row) :
    (∀ s, jsGet r "transaction_reference" = some s → s ≠ "" →
      extractKey r = (if s.trim = "" then none else some s.trim))
    ∧ ((jsGet r "transaction_reference" = none
          ∨ jsGet r "transaction_reference" = some "") →
      ∀ s, jsGet r "reference" = some s → s ≠ "" →
        extractKey r = (if s.trim = "" then none else some s.trim))
    ∧ ((jsGet r "transaction_reference" = none
          ∨ jsGet r "transaction_reference" = some "") →
      (jsGet r "reference" = none ∨ jsGet r "reference" = some "") →
      ∀ s, jsGet r "id" = some s → s ≠ "" →
        extractKey r = (if s.trim = "" then none else some s.trim))
    ∧ ((jsGet r "transaction_reference" = none
          ∨ jsGet r "transaction_reference" = some "") →
      (jsGet r "reference" = none ∨ jsGet r "reference" = some "") →
      (jsGet r "id" = none ∨ jsGet r "id" = some "") →
      extractKey r = none)
    ∧ (extractKey r = none →
      (∀ e ∈ buildIndex iData, e.2 ≠ r)
      ∧ r ∉ (reconcileTransactions iData pData).internal_only
      ∧ r ∉ (reconcileTransactions iData pData).provider_only
      ∧ ∀ md ∈ (reconcileTransactions iData pData).matched
          ++ (reconcileTransactions iData pData).mismatched,
          md.internal ≠ r ∧ md.provider ≠ some r) := by
  refine ⟨?_, ?_, ?_, ?_, fun h => keyless_excluded iData pData r h⟩
  · intro s h hs
    unfold extractKey
    rw [h]
    simp only [firstTruthy]
    rw [if_neg hs]
  · intro h1 s h hs
    unfold extractKey
    rcases h1 with h1 | h1 <;>
      (rw [h1, h]; simp only [firstTruthy, eq_self_iff_true, if_true]; rw [if_neg hs])
  · intro h1 h2 s h hs
    unfold extractKey
    rcases h1 with h1 | h1 <;> rcases h2 with h2 | h2 <;>
      (rw [h1, h2, h]; simp only [firstTruthy, eq_self_iff_true, if_true]; rw [if_neg hs])
  · intro h1 h2 h3
    unfold extractKey
    rcases h1 with h1 | h1 <;> rcases h2 with h2 | h2 <;> rcases h3 with h3 | h3 <;>
      (rw [h1, h2, h3]; simp only [firstTruthy, eq_self_iff_true, if_true];
        with_unfolding_all decide)

theorem claimC3_key_priority_witness :
    extractKey [("transaction_reference", " T1 "), ("reference", "R9")]
      = (if (" T1 " : String).trim = "" then none
          else some (" T1 " : String).trim) :=
  (claimC3_key_priority [("transaction_reference", " T1 "), ("reference", "R9")]
    [] []).1 " T1 " (by with_unfolding_all decide) (by with_unfolding_all decide)

theorem filterMap_key_snd (rows : List Row) :
    (rows.filterMap (fun r => (extractKey r).map (fun k => (k, r)))).map Prod.snd
      = rows.filter (fun r => (extractKey r).isSome) := by
  induction rows with
  | nil => rfl
  | cons r rest ih =>
    cases hk : extractKey r with
    | none =>
      rw [List.filterMap_cons_none (by simp [hk])]
      rw [List.filter_cons_of_neg (by simp [hk])]
      exact ih
    | some key =>
      rw [@List.filterMap_cons_some Row (String × Row)
        (fun r => (extractKey r).map (fun k => (k, r))) r rest (key, r) (by simp [hk])]
      rw [List.filter_cons_of_pos (by simp [hk])]
      rw [List.map_cons]
      rw [ih]

/-- Claim C6 (counterexample to the claim as stated): with duplicate keys
inside the internal input and an empty provider input the key sets are
disjoint, yet internal_only holds one deduplicated row, not every input row
that produced a non-empty key. -/
theorem claimC6_dedup_counterexample :
    ((buildIndex [[("id", "A"), ("amount", "1")], [("id", "A"), ("amount", "2")]]).all
      (fun e => !(mapHas (buildIndex ([] : List Row)) e.1)) = true)
    ∧ (reconcileTransactions
        [[("id", "A"), ("amount", "1")], [("id", "A"), ("amount", "2")]]
        []).internal_only
      ≠ claimKeyedRows [[("id", "A"), ("amount", "1")], [("id", "A"), ("amount", "2")]] := by
  with_unfolding_all decide

/-- Claim C6 (amended): with disjoint key sets, matched and mismatched are
empty and internal_only and provider_only list the rows of the two keyed
indexes in first-occurrence key order (one row per distinct key, the last
row written for that key); when a side has no duplicate keys this is exactly
that side's input rows that produced a non-empty key, in input order. -/
theorem claimC6_disjoint (iData pData : List Row)
    (hdisj : (buildIndex iData).all
      (fun e => !(mapHas (buildIndex pData) e.1)) = true) :
    (reconcileTransactions iData pData).matched = []
    ∧ (reconcileTransactions iData pData).mismatched = []
    ∧ (reconcileTransactions iData pData).internal_only
        = (buildIndex iData).map Prod.snd
    ∧ (reconcileTransactions iData pData).provider_only
        = (buildIndex pData).map Prod.snd
    ∧ ((iData.filterMap extractKey).Nodup →
        (reconcileTransactions iData pData).internal_only
          = claimKeyedRows iData)
    ∧ ((pData.filterMap extractKey).Nodup →
        (reconcileTransactions iData pData).provider_only
          = claimKeyedRows pData) := by
  have hd : ∀ e ∈ buildIndex iData, mapHas (buildIndex pData) e.1 = false := by
    intro e he
    have := List.all_eq_true.1 hdisj e he
    cases hh : mapHas (buildIndex pData) e.1
    · rfl
    · rw [hh] at this
      simp at this
  have hd2 : ∀ e ∈ buildIndex pData, mapHas (buildIndex iData) e.1 = false := by
    intro e he
    cases hh : mapHas (buildIndex iData) e.1 with
    | false => rfl
    | true =>
      obtain ⟨a, ha, hae⟩ := List.mem_map.1 ((mapHas_iff_mem _ _).1 hh)
      have hfalse := hd a ha
      rw [hae] at hfalse
      rw [mapHas_of_mem he] at hfalse
      exact Bool.noConfusion hfalse
  have hcount : (buildIndex iData).countP
      (fun e => mapHas (buildIndex pData) e.1) = 0 := by
    rw [List.countP_eq_zero]
    intro e he
    rw [hd e he]
    exact Bool.noConfusion
  have hlen := processInternal_match_length (buildIndex pData) (buildIndex iData)
  rw [hcount] at hlen
  have hm : (reconcileTransactions iData pData).matched = [] := by
    rw [reconcile_matched_def]
    rw [← List.length_eq_zero]
    omega
  have hmm : (reconcileTransactions iData pData).mismatched = [] := by
    rw [reconcile_mismatched_def]
    rw [← List.length_eq_zero]
    omega
  have hio : (reconcileTransactions iData pData).internal_only
      = (buildIndex iData).map Prod.snd := by
    rw [reconcile_io_def, processInternal_io]
    congr 1
    rw [List.filter_eq_self]
    intro e he
    rw [hd e he]
    rfl
  have hpo : (reconcileTransactions iData pData).provider_only
      = (buildIndex pData).map Prod.snd := by
    rw [reconcile_po_def]
    unfold processProvider
    congr 1
    rw [List.filter_eq_self]
    intro e he
    rw [hd2 e he]
    rfl
  refine ⟨hm, hmm, hio, hpo, ?_, ?_⟩
  · intro hnd
    rw [hio, buildIndex_of_nodup iData hnd, filterMap_key_snd]
    rfl
  · intro hnd
    rw [hpo, buildIndex_of_nodup pData hnd, filterMap_key_snd]
    rfl

theorem claimC6_disjoint_witness :
    (reconcileTransactions [[("id", "X1")]] [[("id", "Y1")]]).matched = [] :=
  (claimC6_disjoint [[("id", "X1")]] [[("id", "Y1")]]
    (by with_unfolding_all decide)).1
